import Mathlib

/-!
Verification of the `lino-env` store (`src/rust/src/lib.rs`).

The library keeps an in-memory multimap from keys to ordered value
sequences (`data: HashMap<String, Vec<String>>`), reads it from a
line-oriented `.lenv` text file and writes it back.

Embedding choices:
* A string is a `List Char` (`Str`).  Rust's `line.find(": ")` returns a
  byte index, but since the pattern `": "` is pure ASCII and the haystack
  is valid UTF-8, a byte-level match never starts inside a code point, so
  byte indices and `List Char` indices identify the same split.
* The `HashMap` state is an association list with (on reachable states)
  pairwise distinct keys; iteration order of the `HashMap` is unspecified,
  and the association-list order stands for one such iteration order.
* File-system interaction is made explicit: a file is
  `Option (Except ε Str)` — `none` when the path does not exist,
  `some (.error e)` when it exists but opening/reading fails,
  `some (.ok content)` otherwise.
* `BufRead::lines` yields chunks split at `'\n'`, stripping the `'\n'`
  and, when the chunk ended in `"\r\n"`, also that `'\r'`; a final chunk
  not terminated by `'\n'` is yielded unmodified (`splitLines`).
-/

namespace LinoEnv

abbrev Str := List Char

/-- The `data: HashMap<String, Vec<String>>` field of `LinoEnv`,
as an association list. -/
abbrev StoreData := List (Str × List Str)

/-- Rust's `char::is_whitespace` (the Unicode `White_Space` property),
used by `str::trim`. -/
def isRustWS (c : Char) : Bool :=
  c == ' ' || c == '\t' || c == '\n' || c == '\x0b' || c == '\x0c' || c == '\r' ||
  c == '\u0085' || c == '\u00A0' || c == '\u1680' ||
  (decide ('\u2000' ≤ c) && decide (c ≤ '\u200A')) ||
  c == '\u2028' || c == '\u2029' || c == '\u202F' || c == '\u205F' || c == '\u3000'

/-- Rust's `str::trim`: drop `White_Space` characters from both ends. -/
def trim (l : Str) : Str :=
  ((l.dropWhile isRustWS).reverse.dropWhile isRustWS).reverse

/-- Does the string start with the two-character separator `": "`? -/
def sepAtB (l : Str) : Bool :=
  decide (l.take 2 = [':', ' '])

/-- Rust's `line.find(": ")`: index of the first occurrence of the
separator, if any. -/
def findSep : Str → Option Nat
  | [] => none
  | c :: rest =>
    if sepAtB (c :: rest) then some 0 else (findSep rest).map (· + 1)

/-- `sepAt l i`: the separator `": "` occurs in `l` at position `i`. -/
def sepAt (l : Str) (i : Nat) : Prop :=
  (l.drop i).take 2 = [':', ' ']

instance (l : Str) (i : Nat) : Decidable (sepAt l i) := by
  unfold sepAt; infer_instance

/-- `HashMap::get`: first (on reachable states: only) entry for a key. -/
def lookupA (k : Str) : StoreData → Option (List Str)
  | [] => none
  | e :: t => if e.1 = k then some e.2 else lookupA k t

/-- `LinoEnv::get_all`: all values for `reference`, `[]` when absent. -/
def getAll (d : StoreData) (k : Str) : List Str :=
  (lookupA k d).getD []

/-- `LinoEnv::get`: last value for `reference`, `none` when absent. -/
def get (d : StoreData) (k : Str) : Option Str :=
  (lookupA k d).bind (fun vs => vs.getLast?)

/-- `LinoEnv::set`: `HashMap::insert` of the one-element vector `[v]`. -/
def setA (k v : Str) : StoreData → StoreData
  | [] => [(k, [v])]
  | e :: t => if e.1 = k then (k, [v]) :: t else e :: setA k v t

/-- `LinoEnv::add`: `entry(k).or_default().push(v)`. -/
def addA (k v : Str) : StoreData → StoreData
  | [] => [(k, [v])]
  | e :: t => if e.1 = k then (e.1, e.2 ++ [v]) :: t else e :: addA k v t

/-- `LinoEnv::delete`: `HashMap::remove`. -/
def deleteA (k : Str) : StoreData → StoreData
  | [] => []
  | e :: t => if e.1 = k then t else e :: deleteA k t

/-- `LinoEnv::has`: key present with a non-empty value vector. -/
def hasA (d : StoreData) (k : Str) : Bool :=
  match lookupA k d with
  | some vs => !vs.isEmpty
  | none => false

/-- `LinoEnv::keys`. -/
def keysA (d : StoreData) : List Str :=
  d.map (fun e => e.1)

/-- `LinoEnv::to_hash_map`: each key mapped to the last value of its
vector (keys with an empty vector, unreachable under the invariant,
are skipped). -/
def toMapA (d : StoreData) : List (Str × Str) :=
  d.filterMap (fun e => (e.2.getLast?).map (fun v => (e.1, v)))

/-- One iteration of the parse loop of `LinoEnv::read` on one line. -/
def parseLine (st : StoreData) (line : Str) : StoreData :=
  let trimmed := trim line
  if trimmed = [] ∨ trimmed.head? = some '#' then st
  else
    match findSep line with
    | some i => addA (trim (line.take i)) (line.drop (i + 2)) st
    | none => st

/-- Strip one trailing `'\r'`, as `BufRead::lines` does on a chunk that
ended in `"\r\n"`. -/
def stripCR (l : Str) : Str :=
  if l.getLast? = some '\r' then l.dropLast else l

/-- Split a text at `'\n'`; `f` is applied to every chunk that was
terminated by a `'\n'` (the final unterminated chunk, if any, is kept
as is, and a final `'\n'` produces no empty trailing chunk). -/
def splitAuxBy (f : Str → Str) : Str → Str → List Str
  | [], cur => if cur = [] then [] else [cur]
  | c :: rest, cur =>
    if c = '\n' then f cur :: splitAuxBy f rest []
    else splitAuxBy f rest (cur ++ [c])

/-- The line sequence `BufRead::lines` yields for a file content. -/
def splitLines (s : Str) : List Str :=
  splitAuxBy stripCR s []

/-- The lines of a text under plain `'\n'` splitting (no `'\r'`
handling); used to talk about the text `write` produces. -/
def plainLines (s : Str) : List Str :=
  splitAuxBy (fun l => l) s []

/-- The parse of a whole file content, starting from the cleared state,
exactly as the loop of `LinoEnv::read` does. -/
def parseContent (content : Str) : StoreData :=
  (splitLines content).foldl parseLine []

/-- `LinoEnv::read`: clears `data`, returns `Ok` with empty data when the
path does not exist, propagates an open/read error, and otherwise
populates the cleared state from the parsed lines. -/
def readRes {ε : Type} (_prior : StoreData) (fs : Option (Except ε Str)) :
    Except ε StoreData :=
  let cleared : StoreData := []
  match fs with
  | none => Except.ok cleared
  | some (Except.error e) => Except.error e
  | some (Except.ok content) =>
      Except.ok ((splitLines content).foldl parseLine cleared)

/-- The line `writeln!(file, "{key}: {value}")` writes, without its
terminating newline. -/
def mkLine (k v : Str) : Str := k ++ ':' :: ' ' :: v

/-- The (key, value) pairs in the order the nested loop of
`LinoEnv::write` visits them. -/
def pairsOf : StoreData → List (Str × Str)
  | [] => []
  | e :: t => e.2.map (fun v => (e.1, v)) ++ pairsOf t

/-- Concatenation of the newline-terminated records for a pair list. -/
def linesText : List (Str × Str) → Str
  | [] => []
  | p :: t => (mkLine p.1 p.2 ++ ['\n']) ++ linesText t

/-- `LinoEnv::write`: the full text written to the (created/truncated)
file. -/
def writeFile (d : StoreData) : Str :=
  linesText (pairsOf d)

/-- A key that survives the trip through the text format: no surrounding
whitespace, no newline, no `": "` substring, not starting with `'#'`. -/
def cleanKey (k : Str) : Prop :=
  trim k = k ∧ '\n' ∉ k ∧ findSep k = none ∧ k.head? ≠ some '#'

instance (k : Str) : Decidable (cleanKey k) := by
  unfold cleanKey; infer_instance

/-- A value that survives the trip: no newline, not ending in `'\r'`. -/
def cleanVal (v : Str) : Prop :=
  '\n' ∉ v ∧ v.getLast? ≠ some '\r'

instance (v : Str) : Decidable (cleanVal v) := by
  unfold cleanVal; infer_instance

/-- A store state whose text rendering parses back to itself: distinct
keys, all keys and values clean, no empty value vector. -/
def cleanStore (d : StoreData) : Prop :=
  (keysA d).Nodup ∧ ∀ e ∈ d, cleanKey e.1 ∧ e.2 ≠ [] ∧ ∀ v ∈ e.2, cleanVal v

instance (d : StoreData) : Decidable (cleanStore d) := by
  unfold cleanStore; infer_instance

/-- The documented invariant: every present key has at least one value. -/
def WFStore (d : StoreData) : Prop :=
  ∀ e ∈ d, e.2 ≠ []

instance (d : StoreData) : Decidable (WFStore d) := by
  unfold WFStore; infer_instance

/-! ### Whitespace and `trim` lemmas -/

theorem dropWhile_append_last {p : Char → Bool} {c : Char} (hc : p c = false) (xs : Str) :
    ∃ u : Str, (xs ++ [c]).dropWhile p = u ++ [c] := by
  induction xs with
  | nil => exact ⟨[], by simp [List.dropWhile_cons, hc]⟩
  | cons x t ih =>
    by_cases hx : p x
    · simpa [List.dropWhile_cons, hx] using ih
    · exact ⟨x :: t, by simp [List.dropWhile_cons, hx]⟩

theorem trim_cons_head {c : Char} (hc : isRustWS c = false) (s : Str) :
    trim (c :: s) ≠ [] ∧ (trim (c :: s)).head? = some c := by
  have h1 : (c :: s).dropWhile isRustWS = c :: s := by
    simp [List.dropWhile_cons, hc]
  obtain ⟨u, hu⟩ := dropWhile_append_last hc s.reverse
  have h2 : trim (c :: s) = c :: u.reverse := by
    unfold trim
    rw [h1, List.reverse_cons, hu]
    simp
  simp [h2]

theorem length_dropWhile_le' (p : Char → Bool) (l : Str) :
    (l.dropWhile p).length ≤ l.length := by
  induction l with
  | nil => simp
  | cons x t ih =>
    by_cases hx : p x
    · rw [List.dropWhile_cons, if_pos hx]
      exact Nat.le_trans ih (Nat.le_succ _)
    · rw [List.dropWhile_cons, if_neg hx]

theorem trim_length_le (l : Str) :
    (trim l).length ≤ (l.dropWhile isRustWS).length := by
  unfold trim
  rw [List.length_reverse]
  have := length_dropWhile_le' isRustWS (l.dropWhile isRustWS).reverse
  simpa using this

theorem head_not_ws_of_trim_self {c : Char} {t : Str} (h : trim (c :: t) = c :: t) :
    isRustWS c = false := by
  by_contra hc
  rw [Bool.not_eq_false] at hc
  have h1 : (c :: t).dropWhile isRustWS = t.dropWhile isRustWS := by
    simp [List.dropWhile_cons, hc]
  have h2 := trim_length_le (c :: t)
  rw [h, h1] at h2
  have h3 := length_dropWhile_le' isRustWS t
  simp at h2
  omega

theorem trim_of_all_ws {l : Str} (h : ∀ c ∈ l, isRustWS c = true) : trim l = [] := by
  have h1 : l.dropWhile isRustWS = [] := List.dropWhile_eq_nil_iff.mpr h
  unfold trim
  rw [h1]
  rfl

theorem dropWhile_head_false {p : Char → Bool} {l : Str} {c : Char} {t : Str}
    (h : l.dropWhile p = c :: t) : p c = false := by
  induction l with
  | nil => simp at h
  | cons x xs ih =>
    by_cases hx : p x
    · rw [List.dropWhile_cons, if_pos hx] at h
      exact ih h
    · rw [List.dropWhile_cons, if_neg hx] at h
      cases h
      exact Bool.not_eq_true _ ▸ (by simpa using hx)

theorem all_ws_of_trim_nil {l : Str} (h : trim l = []) : ∀ c ∈ l, isRustWS c = true := by
  by_contra hall
  have h1 : l.dropWhile isRustWS ≠ [] := by
    intro h2
    exact hall (List.dropWhile_eq_nil_iff.mp h2)
  obtain ⟨c, t, hct⟩ : ∃ c t, l.dropWhile isRustWS = c :: t := by
    cases h2 : l.dropWhile isRustWS with
    | nil => exact absurd h2 h1
    | cons c t => exact ⟨c, t, rfl⟩
  have hc : isRustWS c = false := dropWhile_head_false hct
  obtain ⟨u, hu⟩ := dropWhile_append_last hc t.reverse
  have h3 : trim l = c :: u.reverse := by
    unfold trim
    rw [hct, List.reverse_cons, hu]
    simp
  rw [h] at h3
  exact absurd h3.symm (List.cons_ne_nil _ _)

/-! ### Separator search lemmas -/

theorem sepAtB_iff {l : Str} : sepAtB l = true ↔ sepAt l 0 := by
  simp [sepAtB, sepAt]

theorem sepAt_cons_succ {c : Char} {t : Str} {j : Nat} :
    sepAt (c :: t) (j + 1) ↔ sepAt t j := by
  simp [sepAt]

theorem findSep_some_spec : ∀ {l : Str} {i : Nat}, findSep l = some i →
    sepAt l i ∧ ∀ j < i, ¬ sepAt l j := by
  intro l
  induction l with
  | nil => intro i h; simp [findSep] at h
  | cons c rest ih =>
    intro i h
    rw [findSep] at h
    by_cases hs : sepAtB (c :: rest) = true
    · rw [if_pos hs] at h
      cases h
      exact ⟨sepAtB_iff.mp hs, fun j hj => absurd hj (Nat.not_lt_zero j)⟩
    · rw [if_neg hs] at h
      cases hrest : findSep rest with
      | none => rw [hrest] at h; simp at h
      | some j =>
        rw [hrest] at h
        simp at h
        obtain ⟨hsep, hmin⟩ := ih hrest
        subst h
        refine ⟨sepAt_cons_succ.mpr hsep, ?_⟩
        intro m hm
        match m with
        | 0 => exact fun hm0 => hs (sepAtB_iff.mpr hm0)
        | Nat.succ m' =>
          intro hmm
          exact hmin m' (by omega) (sepAt_cons_succ.mp hmm)

theorem findSep_none_spec : ∀ {l : Str}, findSep l = none → ∀ j, ¬ sepAt l j := by
  intro l
  induction l with
  | nil =>
    intro _ j
    simp [sepAt]
  | cons c rest ih =>
    intro h j
    rw [findSep] at h
    by_cases hs : sepAtB (c :: rest) = true
    · rw [if_pos hs] at h; cases h
    · rw [if_neg hs] at h
      have hrest : findSep rest = none := by
        cases h' : findSep rest with
        | none => rfl
        | some m => rw [h'] at h; simp at h
      match j with
      | 0 => exact fun h0 => hs (sepAtB_iff.mpr h0)
      | Nat.succ j' => exact fun hj => ih hrest j' (sepAt_cons_succ.mp hj)

theorem findSep_mkLine {k : Str} (hk : findSep k = none) (v : Str) :
    findSep (mkLine k v) = some k.length := by
  induction k with
  | nil => simp [mkLine, findSep, sepAtB]
  | cons c k' ih =>
    rw [findSep] at hk
    by_cases hs : sepAtB (c :: k') = true
    · rw [if_pos hs] at hk; cases hk
    · rw [if_neg hs] at hk
      have hk' : findSep k' = none := by
        cases h' : findSep k' with
        | none => rfl
        | some m => rw [h'] at hk; simp at hk
      have hline : mkLine (c :: k') v = c :: (k' ++ ':' :: ' ' :: v) := by
        simp [mkLine]
      rw [hline, findSep]
      have hs2 : ¬ sepAtB (c :: (k' ++ ':' :: ' ' :: v)) = true := by
        cases k' with
        | nil => simp [sepAtB]
        | cons d k'' =>
          simp [sepAtB] at hs ⊢
          exact hs
      rw [if_neg hs2]
      have hm : k' ++ ':' :: ' ' :: v = mkLine k' v := rfl
      rw [hm, ih hk']
      simp

/-! ### `take`/`drop` around an appended separator -/

theorem take_length_append (k r : Str) : (k ++ r).take k.length = k := by
  induction k with
  | nil => simp
  | cons c t ih => simp [ih]

theorem drop_length_add_append (k r : Str) (n : Nat) :
    (k ++ r).drop (k.length + n) = r.drop n := by
  induction k with
  | nil => simp
  | cons c t ih =>
    have : (c :: t).length + n = (t.length + n) + 1 := by simp; omega
    rw [this, List.cons_append, List.drop_succ_cons, ih]

/-! ### Splitting a written text back into lines -/

theorem splitAuxBy_append (f : Str → Str) {l : Str} (h : '\n' ∉ l) :
    ∀ s cur : Str, splitAuxBy f (l ++ s) cur = splitAuxBy f s (cur ++ l) := by
  induction l with
  | nil => intro s cur; simp
  | cons c t ih =>
    intro s cur
    have hc : c ≠ '\n' := fun h' => h (h' ▸ List.mem_cons_self c t)
    have ht : '\n' ∉ t := fun h' => h (List.mem_cons_of_mem c h')
    rw [List.cons_append, splitAuxBy, if_neg hc, ih ht]
    simp

theorem splitAuxBy_linesText (f : Str → Str) :
    ∀ ps : List (Str × Str), (∀ p ∈ ps, '\n' ∉ mkLine p.1 p.2) →
    splitAuxBy f (linesText ps) [] = ps.map (fun p => f (mkLine p.1 p.2)) := by
  intro ps
  induction ps with
  | nil => intro _; rfl
  | cons p t ih =>
    intro h
    have h1 : '\n' ∉ mkLine p.1 p.2 := h p (List.mem_cons_self p t)
    have h2 : ∀ q ∈ t, '\n' ∉ mkLine q.1 q.2 := fun q hq => h q (List.mem_cons_of_mem p hq)
    rw [linesText, List.append_assoc, splitAuxBy_append f h1]
    have h3 : ['\n'] ++ linesText t = '\n' :: linesText t := rfl
    rw [h3, splitAuxBy, if_pos rfl, ih h2]
    simp

theorem nl_not_mem_mkLine {k v : Str} (hk : '\n' ∉ k) (hv : '\n' ∉ v) :
    '\n' ∉ mkLine k v := by
  unfold mkLine
  intro h
  rcases List.mem_append.mp h with h1 | h2
  · exact hk h1
  · simp at h2
    exact hv h2

theorem stripCR_mkLine {v : Str} (hv : v.getLast? ≠ some '\r') (k : Str) :
    stripCR (mkLine k v) = mkLine k v := by
  have h1 : (mkLine k v).getLast? = (':' :: ' ' :: v).getLast? :=
    List.getLast?_append_cons k ':' (' ' :: v)
  have h2 : (':' :: ' ' :: v).getLast? ≠ some '\r' := by
    cases v with
    | nil => simp
    | cons x xs =>
      rw [List.getLast?_cons_cons, List.getLast?_cons_cons]
      exact hv
  unfold stripCR
  rw [h1, if_neg h2]

/-- For a list of clean pairs, reading the written text back yields
exactly the written lines. -/
theorem splitLines_linesText {ps : List (Str × Str)}
    (h : ∀ p ∈ ps, '\n' ∉ p.1 ∧ '\n' ∉ p.2 ∧ p.2.getLast? ≠ some '\r') :
    splitLines (linesText ps) = ps.map (fun p => mkLine p.1 p.2) := by
  unfold splitLines
  rw [splitAuxBy_linesText stripCR ps
    (fun p hp => nl_not_mem_mkLine (h p hp).1 (h p hp).2.1)]
  exact List.map_congr_left (fun p hp => stripCR_mkLine (h p hp).2.2 p.1)

/-! ### `parseLine` on a written line -/

theorem parseLine_not_skipped {k : Str} (hk : cleanKey k) (v : Str) :
    ¬(trim (mkLine k v) = [] ∨ (trim (mkLine k v)).head? = some '#') := by
  obtain ⟨htrim, _, _, hhash⟩ := hk
  cases k with
  | nil =>
    have h := trim_cons_head (c := ':') (by decide) (' ' :: v)
    have hml : mkLine [] v = ':' :: ' ' :: v := rfl
    rw [hml]
    intro hor
    rcases hor with h1 | h2
    · exact h.1 h1
    · rw [h.2] at h2
      cases h2
  | cons c t =>
    have hcws : isRustWS c = false := head_not_ws_of_trim_self htrim
    have hc : c ≠ '#' := by
      intro h'
      subst h'
      exact hhash rfl
    have h := trim_cons_head hcws (t ++ ':' :: ' ' :: v)
    have hml : mkLine (c :: t) v = c :: (t ++ ':' :: ' ' :: v) := by simp [mkLine]
    rw [hml]
    intro hor
    rcases hor with h1 | h2
    · exact h.1 h1
    · rw [h.2] at h2
      exact hc (Option.some.inj h2)

theorem parseLine_mkLine {k : Str} (hk : cleanKey k) (st : StoreData) (v : Str) :
    parseLine st (mkLine k v) = addA k v st := by
  have hskip := parseLine_not_skipped hk v
  unfold parseLine
  rw [if_neg hskip, findSep_mkLine hk.2.2.1 v]
  have h1 : (mkLine k v).take k.length = k := take_length_append k (':' :: ' ' :: v)
  have h2 : (mkLine k v).drop (k.length + 2) = v :=
    drop_length_add_append k (':' :: ' ' :: v) 2
  show addA (trim ((mkLine k v).take k.length)) ((mkLine k v).drop (k.length + 2)) st =
    addA k v st
  rw [h1, h2, hk.1]

/-! ### Folding the parse over the written pairs -/

theorem addA_cons_ne {e : Str × List Str} {k : Str} (h : e.1 ≠ k) (v : Str)
    (t : StoreData) : addA k v (e :: t) = e :: addA k v t := by
  cases e
  simp [addA, h]

theorem addA_cons_self (k : Str) (acc : List Str) (v : Str) (t : StoreData) :
    addA k v ((k, acc) :: t) = (k, acc ++ [v]) :: t := by
  simp [addA]

theorem foldl_parseLine_map_mkLine :
    ∀ (ps : List (Str × Str)) (st : StoreData), (∀ p ∈ ps, cleanKey p.1) →
    (ps.map (fun p => mkLine p.1 p.2)).foldl parseLine st =
      ps.foldl (fun s p => addA p.1 p.2 s) st := by
  intro ps
  induction ps with
  | nil => intro st _; rfl
  | cons p t ih =>
    intro st h
    rw [List.map_cons, List.foldl_cons, List.foldl_cons,
      parseLine_mkLine (h p (List.mem_cons_self p t)) st p.2]
    exact ih _ (fun q hq => h q (List.mem_cons_of_mem p hq))

theorem foldl_addA_same_key (k : Str) :
    ∀ (vs acc : List Str) (t : StoreData),
    (vs.map (fun v => (k, v))).foldl (fun s p => addA p.1 p.2 s) ((k, acc) :: t) =
      (k, acc ++ vs) :: t := by
  intro vs
  induction vs with
  | nil => intro acc t; simp
  | cons v vs' ih =>
    intro acc t
    rw [List.map_cons, List.foldl_cons, addA_cons_self, ih]
    simp

theorem foldl_addA_frame {e : Str × List Str} :
    ∀ (ps : List (Str × Str)) (st : StoreData), (∀ p ∈ ps, p.1 ≠ e.1) →
    ps.foldl (fun s p => addA p.1 p.2 s) (e :: st) =
      e :: ps.foldl (fun s p => addA p.1 p.2 s) st := by
  intro ps
  induction ps with
  | nil => intro st _; rfl
  | cons p t ih =>
    intro st h
    rw [List.foldl_cons, List.foldl_cons,
      addA_cons_ne (h p (List.mem_cons_self p t)).symm p.2 st]
    exact ih _ (fun q hq => h q (List.mem_cons_of_mem p hq))

theorem pairsOf_key_mem {d : StoreData} {p : Str × Str} (h : p ∈ pairsOf d) :
    p.1 ∈ keysA d := by
  induction d with
  | nil => cases h
  | cons e t ih =>
    rw [pairsOf] at h
    rcases List.mem_append.mp h with h1 | h2
    · obtain ⟨v, _, hv⟩ := List.mem_map.mp h1
      rw [← hv]
      exact List.mem_cons_self _ _
    · exact List.mem_cons_of_mem _ (ih h2)

theorem foldl_addA_pairsOf :
    ∀ d : StoreData, (keysA d).Nodup → (∀ e ∈ d, e.2 ≠ []) →
    (pairsOf d).foldl (fun s p => addA p.1 p.2 s) [] = d := by
  intro d
  induction d with
  | nil => intro _ _; rfl
  | cons e t ih =>
    intro hnd hne
    rw [pairsOf, List.foldl_append]
    have hnd' : (keysA t).Nodup := (List.nodup_cons.mp hnd).2
    have hkem : e.1 ∉ keysA t := (List.nodup_cons.mp hnd).1
    obtain ⟨v, vs', hvs⟩ : ∃ v vs', e.2 = v :: vs' := by
      cases h2 : e.2 with
      | nil => exact absurd h2 (hne e (List.mem_cons_self e t))
      | cons v vs' => exact ⟨v, vs', rfl⟩
    have hblock :
        (e.2.map (fun v => (e.1, v))).foldl (fun s p => addA p.1 p.2 s) [] = [(e.1, e.2)] := by
      rw [hvs, List.map_cons, List.foldl_cons]
      have h0 : addA e.1 v [] = [(e.1, [v])] := rfl
      rw [h0, foldl_addA_same_key e.1 vs' [v] []]
      simp
    rw [hblock]
    have hframe : ∀ p ∈ pairsOf t, p.1 ≠ e.1 := by
      intro p hp h'
      exact hkem (h' ▸ pairsOf_key_mem hp)
    have he : (e.1, e.2) = e := rfl
    rw [he, foldl_addA_frame (pairsOf t) [] hframe,
      ih hnd' (fun q hq => hne q (List.mem_cons_of_mem e hq))]

/-- Core round-trip helper: a clean store parses back from its own
written text unchanged. -/
theorem parse_write_eq {d : StoreData} (h : cleanStore d) :
    parseContent (writeFile d) = d := by
  obtain ⟨hnd, hall⟩ := h
  unfold parseContent writeFile
  have hpairs : ∀ p ∈ pairsOf d, cleanKey p.1 ∧ cleanVal p.2 := by
    intro p hp
    induction d with
    | nil => cases hp
    | cons e t ih =>
      rw [pairsOf] at hp
      rcases List.mem_append.mp hp with h1 | h2
      · obtain ⟨v, hv, hpv⟩ := List.mem_map.mp h1
        obtain ⟨hck, _, hcv⟩ := hall e (List.mem_cons_self e t)
        rw [← hpv]
        exact ⟨hck, hcv v hv⟩
      · exact ih (List.nodup_cons.mp hnd).2
          (fun q hq => hall q (List.mem_cons_of_mem e hq)) h2
  have hsplit : splitLines (linesText (pairsOf d)) =
      (pairsOf d).map (fun p => mkLine p.1 p.2) := by
    apply splitLines_linesText
    intro p hp
    obtain ⟨⟨_, hknl, _, _⟩, hvnl, hvcr⟩ := hpairs p hp
    exact ⟨hknl, hvnl, hvcr⟩
  rw [hsplit, foldl_parseLine_map_mkLine (pairsOf d) [] (fun p hp => (hpairs p hp).1)]
  exact foldl_addA_pairsOf d hnd (fun e he => (hall e he).2.1)

/-! ### Store-operation lemmas -/

theorem lookupA_setA_self (k v : Str) : ∀ d : StoreData, lookupA k (setA k v d) = some [v] := by
  intro d
  induction d with
  | nil => simp [setA, lookupA]
  | cons e t ih =>
    by_cases h : e.1 = k
    · simp [setA, h, lookupA]
    · simp [setA, h, lookupA, ih]

theorem lookupA_setA_ne {k j : Str} (h : k ≠ j) (v : Str) :
    ∀ d : StoreData, lookupA j (setA k v d) = lookupA j d := by
  intro d
  induction d with
  | nil => simp [setA, lookupA, h]
  | cons e t ih =>
    by_cases h1 : e.1 = k
    · subst h1
      simp [setA, lookupA, h, ih]
    · simp [setA, h1, lookupA, ih]

theorem lookupA_addA_self (k v : Str) :
    ∀ d : StoreData, lookupA k (addA k v d) = some (getAll d k ++ [v]) := by
  intro d
  induction d with
  | nil => simp [addA, lookupA, getAll]
  | cons e t ih =>
    by_cases h : e.1 = k
    · simp [addA, h, lookupA, getAll]
    · simp [addA, h, lookupA, ih, getAll]

theorem lookupA_addA_ne {k j : Str} (h : k ≠ j) (v : Str) :
    ∀ d : StoreData, lookupA j (addA k v d) = lookupA j d := by
  intro d
  induction d with
  | nil => simp [addA, lookupA, h]
  | cons e t ih =>
    by_cases h1 : e.1 = k
    · subst h1
      simp [addA, lookupA, h, ih]
    · simp [addA, h1, lookupA, ih]

theorem lookupA_deleteA_ne {k j : Str} (h : k ≠ j) :
    ∀ d : StoreData, lookupA j (deleteA k d) = lookupA j d := by
  intro d
  induction d with
  | nil => simp [deleteA]
  | cons e t ih =>
    by_cases h1 : e.1 = k
    · subst h1
      have h2 : e.1 ≠ j := h
      simp [deleteA, lookupA, h2, ih]
    · simp [deleteA, h1, lookupA, ih]

theorem lookupA_none_of_not_mem {k : Str} :
    ∀ {d : StoreData}, k ∉ keysA d → lookupA k d = none := by
  intro d
  induction d with
  | nil => intro _; rfl
  | cons e t ih =>
    intro h
    have h1 : e.1 ≠ k := fun h' => h (h' ▸ List.mem_cons_self _ _)
    have h2 : k ∉ keysA t := fun h' => h (List.mem_cons_of_mem _ h')
    simp [lookupA, h1, ih h2]

theorem lookupA_deleteA_self (k : Str) :
    ∀ d : StoreData, (keysA d).Nodup → lookupA k (deleteA k d) = none := by
  intro d
  induction d with
  | nil => intro _; rfl
  | cons e t ih =>
    intro hnd
    by_cases h1 : e.1 = k
    · rw [deleteA, if_pos h1]
      have : k ∉ keysA t := h1 ▸ (List.nodup_cons.mp hnd).1
      exact lookupA_none_of_not_mem this
    · rw [deleteA, if_neg h1, lookupA, if_neg h1]
      exact ih (List.nodup_cons.mp hnd).2

theorem deleteA_absent {k : Str} :
    ∀ {d : StoreData}, lookupA k d = none → deleteA k d = d := by
  intro d
  induction d with
  | nil => intro _; rfl
  | cons e t ih =>
    intro h
    rw [lookupA] at h
    by_cases h1 : e.1 = k
    · rw [if_pos h1] at h
      cases h
    · rw [if_neg h1] at h
      rw [deleteA, if_neg h1, ih h]

theorem get_eq_getAll_getLast (d : StoreData) (k : Str) :
    get d k = (getAll d k).getLast? := by
  cases h : lookupA k d <;> simp [get, getAll, h]

theorem getAll_addA_self (d : StoreData) (k v : Str) :
    getAll (addA k v d) k = getAll d k ++ [v] := by
  simp [getAll, lookupA_addA_self k v d]

/-! ### Invariant preservation -/

theorem WF_addA : ∀ {d : StoreData}, WFStore d → ∀ k v, WFStore (addA k v d) := by
  intro d
  induction d with
  | nil =>
    intro _ k v e he
    simp [addA] at he
    simp [he]
  | cons a t ih =>
    intro h k v e he
    by_cases h1 : a.1 = k
    · simp [addA, h1] at he
      rcases he with he | he
      · simp [he]
      · exact h e (List.mem_cons_of_mem a he)
    · simp [addA, h1] at he
      rcases he with he | he
      · exact he ▸ h a (List.mem_cons_self a t)
      · exact ih (fun q hq => h q (List.mem_cons_of_mem a hq)) k v e he

theorem WF_setA : ∀ {d : StoreData}, WFStore d → ∀ k v, WFStore (setA k v d) := by
  intro d
  induction d with
  | nil =>
    intro _ k v e he
    simp [setA] at he
    simp [he]
  | cons a t ih =>
    intro h k v e he
    by_cases h1 : a.1 = k
    · simp [setA, h1] at he
      rcases he with he | he
      · simp [he]
      · exact h e (List.mem_cons_of_mem a he)
    · simp [setA, h1] at he
      rcases he with he | he
      · exact he ▸ h a (List.mem_cons_self a t)
      · exact ih (fun q hq => h q (List.mem_cons_of_mem a hq)) k v e he

theorem WF_deleteA : ∀ {d : StoreData}, WFStore d → ∀ k, WFStore (deleteA k d) := by
  intro d
  induction d with
  | nil => intro _ k e he; cases he
  | cons a t ih =>
    intro h k e he
    by_cases h1 : a.1 = k
    · rw [deleteA, if_pos h1] at he
      exact h e (List.mem_cons_of_mem a he)
    · rw [deleteA, if_neg h1] at he
      rcases List.mem_cons.mp he with he | he
      · exact he ▸ h a (List.mem_cons_self a t)
      · exact ih (fun q hq => h q (List.mem_cons_of_mem a hq)) k e he

theorem WF_parseLine {st : StoreData} (h : WFStore st) (line : Str) :
    WFStore (parseLine st line) := by
  unfold parseLine
  by_cases hskip : trim line = [] ∨ (trim line).head? = some '#'
  · rw [if_pos hskip]
    exact h
  · rw [if_neg hskip]
    cases hf : findSep line with
    | none => simp [hf]; exact h
    | some i => simp [hf]; exact WF_addA h _ _

theorem WF_parseContent (c : Str) : WFStore (parseContent c) := by
  unfold parseContent
  generalize splitLines c = ls
  have hgen : ∀ (ls : List Str) (st : StoreData), WFStore st → WFStore (ls.foldl parseLine st) := by
    intro ls
    induction ls with
    | nil => intro st h; exact h
    | cons l t ih => intro st h; exact ih _ (WF_parseLine h l)
  exact hgen ls [] (fun e he => absurd he (List.not_mem_nil e))

/-! ### Further helpers: pair decomposition, filters, clean `set` -/

theorem mem_pairsOf {p : Str × Str} :
    ∀ {d : StoreData}, p ∈ pairsOf d → ∃ e ∈ d, p.1 = e.1 ∧ p.2 ∈ e.2 := by
  intro d
  induction d with
  | nil => intro h; cases h
  | cons a t ih =>
    intro h
    rw [pairsOf] at h
    rcases List.mem_append.mp h with h1 | h2
    · obtain ⟨v, hv, hpv⟩ := List.mem_map.mp h1
      exact ⟨a, List.mem_cons_self a t, by rw [← hpv], by rw [← hpv]; exact hv⟩
    · obtain ⟨e, he, hpe⟩ := ih h2
      exact ⟨e, List.mem_cons_of_mem a he, hpe⟩

theorem filter_pairs_block_self (k : Str) (vs : List Str) :
    ((vs.map (fun v => (k, v))).filter (fun p => p.1 == k)).map (fun p => p.2) = vs := by
  induction vs with
  | nil => rfl
  | cons v t ih => simp [List.filter, ih]

theorem filter_pairs_block_ne {k j : Str} (h : k ≠ j) (vs : List Str) :
    (vs.map (fun v => (k, v))).filter (fun p => p.1 == j) = [] := by
  induction vs with
  | nil => rfl
  | cons v t ih =>
    have hb : (k == j) = false := by simp [h]
    simp [List.filter, hb, ih]

theorem filter_pairsOf_ne {j : Str} :
    ∀ {d : StoreData}, j ∉ keysA d → (pairsOf d).filter (fun p => p.1 == j) = [] := by
  intro d
  induction d with
  | nil => intro _; rfl
  | cons a t ih =>
    intro h
    have h1 : a.1 ≠ j := fun h' => h (h' ▸ List.mem_cons_self _ _)
    have h2 : j ∉ keysA t := fun h' => h (List.mem_cons_of_mem _ h')
    rw [pairsOf, List.filter_append, filter_pairs_block_ne h1, ih h2]
    rfl

theorem lookupA_of_mem_nodup {e : Str × List Str} :
    ∀ {d : StoreData}, e ∈ d → (keysA d).Nodup → lookupA e.1 d = some e.2 := by
  intro d
  induction d with
  | nil => intro he; cases he
  | cons a t ih =>
    intro he hnd
    rcases List.mem_cons.mp he with he | he
    · subst he
      rw [lookupA, if_pos rfl]
    · have hkeys : keysA (a :: t) = a.1 :: keysA t := rfl
      rw [hkeys] at hnd
      have hne : a.1 ≠ e.1 := by
        intro h'
        have hkm : e.1 ∈ keysA t := by
          simp only [keysA]
          exact List.mem_map_of_mem _ he
        exact (List.nodup_cons.mp hnd).1 (by rw [h']; exact hkm)
      rw [lookupA, if_neg hne]
      exact ih he (List.nodup_cons.mp hnd).2

theorem mem_keysA_setA {j k v : Str} :
    ∀ {d : StoreData}, j ∈ keysA (setA k v d) → j ∈ keysA d ∨ j = k := by
  intro d
  induction d with
  | nil =>
    intro h
    simp [setA, keysA] at h
    exact Or.inr h
  | cons a t ih =>
    intro h
    by_cases h1 : a.1 = k
    · rw [setA, if_pos h1] at h
      simp only [keysA, List.map_cons] at h
      rcases List.mem_cons.mp h with h2 | h2
      · exact Or.inr h2
      · exact Or.inl (List.mem_cons_of_mem _ h2)
    · rw [setA, if_neg h1] at h
      simp only [keysA, List.map_cons] at h
      rcases List.mem_cons.mp h with h2 | h2
      · exact Or.inl (h2 ▸ List.mem_cons_self _ _)
      · rcases ih h2 with h3 | h3
        · exact Or.inl (List.mem_cons_of_mem _ h3)
        · exact Or.inr h3

theorem cleanStore_setA {k v : Str} (hk : cleanKey k) (hv : cleanVal v) :
    ∀ {d : StoreData}, cleanStore d → cleanStore (setA k v d) := by
  intro d
  induction d with
  | nil =>
    intro _
    refine ⟨by simp [setA, keysA], ?_⟩
    intro e he
    simp [setA] at he
    subst he
    exact ⟨hk, by simp, fun w hw => by simp at hw; rw [hw]; exact hv⟩
  | cons a t ih =>
    intro h
    obtain ⟨hnd, hall⟩ := h
    by_cases h1 : a.1 = k
    · rw [setA, if_pos h1]
      constructor
      · have : keysA ((k, [v]) :: t) = k :: keysA t := rfl
        rw [this, ← h1]
        exact hnd
      · intro e he
        rcases List.mem_cons.mp he with he | he
        · subst he
          exact ⟨hk, by simp, fun w hw => by simp at hw; rw [hw]; exact hv⟩
        · exact hall e (List.mem_cons_of_mem a he)
    · rw [setA, if_neg h1]
      have ht : cleanStore t :=
        ⟨(List.nodup_cons.mp hnd).2, fun q hq => hall q (List.mem_cons_of_mem a hq)⟩
      obtain ⟨hnd', hall'⟩ := ih ht
      constructor
      · have : keysA (a :: setA k v t) = a.1 :: keysA (setA k v t) := rfl
        rw [this, List.nodup_cons]
        refine ⟨?_, hnd'⟩
        intro hmem
        rcases mem_keysA_setA hmem with h2 | h2
        · exact (List.nodup_cons.mp hnd).1 h2
        · exact h1 h2
      · intro e he
        rcases List.mem_cons.mp he with he | he
        · exact he ▸ hall a (List.mem_cons_self a t)
        · exact hall' e he

/-! ## Claims -/

/-- The store used to refute claim C1 as stated: its only key contains
the separator `": "`, so its written line re-parses under a different
key. -/
def cexStoreC1 : StoreData := [("A: B".data, ["c".data])]

/-- C1 (counterexample): the round-trip claim fails as stated.  The store
mapping key `"A: B"` to the sequence `["c"]` satisfies the claim's
hypotheses (a mapping with distinct keys, non-empty value sequences, no
newline in any value), yet after `write` and a fresh `read`,
`get_all "A: B"` is not the original sequence (the parsed store holds the
pair under key `"A"` instead). -/
theorem roundtrip_cex :
    (keysA cexStoreC1).Nodup ∧
    (∀ e ∈ cexStoreC1, e.2 ≠ [] ∧ ∀ v ∈ e.2, '\n' ∉ v) ∧
    getAll (parseContent (writeFile cexStoreC1)) ("A: B".data) ≠
      getAll cexStoreC1 ("A: B".data) := by
  decide

/-- C1 (amended): for every store that is a mapping (pairwise distinct
keys) from keys to non-empty ordered sequences of values, where — beyond
the claim's original hypothesis that no value contains a newline — every
key equals its own trim, contains no newline and no `": "` substring and
does not start with `'#'`, and no value ends in a carriage return,
`write` followed by `read` on a fresh store yields exactly the original
state; in particular `get_all k` equals the original sequence for every
key `k` of the store and `get k` equals its last element. -/
theorem roundtrip_amended (d : StoreData) (h : cleanStore d) :
    @readRes Unit [] (some (Except.ok (writeFile d))) = Except.ok d ∧
    (∀ k, getAll (parseContent (writeFile d)) k = getAll d k) ∧
    (∀ e ∈ d, get (parseContent (writeFile d)) e.1 = e.2.getLast?) := by
  have hp := parse_write_eq h
  have hread : @readRes Unit [] (some (Except.ok (writeFile d))) =
      Except.ok (parseContent (writeFile d)) := rfl
  refine ⟨by rw [hread, hp], fun k => by rw [hp], ?_⟩
  intro e he
  rw [hp, get_eq_getAll_getLast]
  have hl : lookupA e.1 d = some e.2 := lookupA_of_mem_nodup he h.1
  rw [getAll, hl]
  rfl

/-- C1 (witness): the amended round-trip theorem applied to the concrete
clean store mapping `"K"` to `["a", "b"]`. -/
theorem roundtrip_amended_witness :
    cleanStore [("K".data, ["a".data, "b".data])] ∧
    getAll (parseContent (writeFile [("K".data, ["a".data, "b".data])])) "K".data =
      getAll [("K".data, ["a".data, "b".data])] "K".data :=
  ⟨by decide, (roundtrip_amended [("K".data, ["a".data, "b".data])] (by decide)).2.1 "K".data⟩

/-- C2: per-line behaviour of the `read` parse loop.
(1) A line that is whitespace-only, or whose first non-whitespace
character (the head of its trim) is `'#'`, leaves the state unchanged.
(2) `findSep` finds exactly the first occurrence of `": "`.
(3) On a non-skipped line whose first `": "` is at `i`, the text before
it, trimmed, becomes the key, and the text after it, unmodified, is
appended to the end of that key's sequence (accumulating, not
replacing).
(4) A line containing no `": "` at all has no effect on the state (and
the parser is total, so no error is raised). -/
theorem parse_line_spec :
    (∀ (st : StoreData) (line : Str),
      ((∀ c ∈ line, isRustWS c = true) ∨ (trim line).head? = some '#') →
      parseLine st line = st) ∧
    (∀ (l : Str) (i : Nat), findSep l = some i →
      sepAt l i ∧ ∀ j < i, ¬ sepAt l j) ∧
    (∀ (st : StoreData) (line : Str) (i : Nat),
      ¬(trim line = [] ∨ (trim line).head? = some '#') → findSep line = some i →
      parseLine st line = addA (trim (line.take i)) (line.drop (i + 2)) st ∧
      getAll (parseLine st line) (trim (line.take i)) =
        getAll st (trim (line.take i)) ++ [line.drop (i + 2)]) ∧
    (∀ (st : StoreData) (line : Str), (∀ j, ¬ sepAt line j) →
      parseLine st line = st) := by
  refine ⟨?_, ?_, ?_, ?_⟩
  · intro st line h
    unfold parseLine
    rcases h with h | h
    · rw [if_pos (Or.inl (trim_of_all_ws h))]
    · rw [if_pos (Or.inr h)]
  · intro l i h
    exact findSep_some_spec h
  · intro st line i hns hf
    have heq : parseLine st line = addA (trim (line.take i)) (line.drop (i + 2)) st := by
      unfold parseLine
      rw [if_neg hns, hf]
    exact ⟨heq, by rw [heq, getAll_addA_self]⟩
  · intro st line h
    have hf : findSep line = none := by
      cases hf : findSep line with
      | none => rfl
      | some i => exact absurd (findSep_some_spec hf).1 (h i)
    unfold parseLine
    by_cases hns : trim line = [] ∨ (trim line).head? = some '#'
    · rw [if_pos hns]
    · rw [if_neg hns, hf]

/-- C2 (witness): the per-line parse theorem applied to concrete lines: a
whitespace-only line, a comment line, a well-formed line (first separator
at index 1, value kept untrimmed), and a separator-free line. -/
theorem parse_line_spec_witness :
    parseLine [] "   ".data = [] ∧
    parseLine [] " # note".data = [] ∧
    (sepAt "A: b".data 1 ∧ ∀ j < 1, ¬ sepAt "A: b".data j) ∧
    parseLine [("A".data, ["z".data])] "A: b".data =
      addA (trim (("A: b".data).take 1)) (("A: b".data).drop 3) [("A".data, ["z".data])] ∧
    parseLine [] "malformed".data = [] := by
  refine ⟨?_, ?_, ?_, ?_, ?_⟩
  · exact parse_line_spec.1 [] "   ".data (Or.inl (by decide))
  · exact parse_line_spec.1 [] " # note".data (Or.inr (by decide))
  · exact parse_line_spec.2.1 "A: b".data 1 (by decide)
  · exact (parse_line_spec.2.2.1 [("A".data, ["z".data])] "A: b".data 1
      (by decide) (by decide)).1
  · exact parse_line_spec.2.2.2 [] "malformed".data
      (findSep_none_spec (by decide))

/-- C3: `read` replaces the whole prior in-memory state: its result never
depends on the prior state (`data.clear()` runs first), prior `add`/`set`
mutations are discarded, and a successful read of file contents `c`
yields exactly `parseContent c`. -/
theorem read_replaces_state (ε : Type) :
    (∀ (prior : StoreData) (fs : Option (Except ε Str)),
      readRes prior fs = readRes [] fs) ∧
    (∀ (prior : StoreData) (k v : Str) (fs : Option (Except ε Str)),
      readRes (addA k v prior) fs = readRes prior fs ∧
      readRes (setA k v prior) fs = readRes prior fs) ∧
    (∀ (prior : StoreData) (c : Str),
      readRes prior (some (Except.ok c) : Option (Except ε Str)) =
        Except.ok (parseContent c)) :=
  ⟨fun _ _ => rfl, fun _ _ _ _ => ⟨rfl, rfl⟩, fun _ _ => rfl⟩

/-- C4: when the bound path does not exist `read` clears the state and
succeeds, and it returns an I/O error exactly when the file exists but
cannot be opened or read. -/
theorem read_missing_file_spec (ε : Type) (prior : StoreData)
    (fs : Option (Except ε Str)) :
    readRes prior (none : Option (Except ε Str)) = Except.ok ([] : StoreData) ∧
    ((∃ e, readRes prior fs = Except.error e) ↔ ∃ e, fs = some (Except.error e)) := by
  refine ⟨rfl, ?_, ?_⟩
  · rintro ⟨e, he⟩
    match fs with
    | none => simp [readRes] at he
    | some (Except.error e') => exact ⟨e', rfl⟩
    | some (Except.ok c) => simp [readRes] at he
  · rintro ⟨e, he⟩
    exact ⟨e, by rw [he]; rfl⟩

/-- C5: `set k v` leaves `get_all k = [v]` whatever the prior state (any
prior `add`s included); `set` is a total function, so it never fails. -/
theorem set_replaces_all (d : StoreData) (k v : Str) :
    getAll (setA k v d) k = [v] := by
  simp [getAll, lookupA_setA_self k v d]

/-- C6: on a store fresh for key `k`, `add k a; add k b; add k c` yields
`get_all k = [a, b, c]` and `get k = some c`; and in general `get`
returns the last element of `get_all` — `none` (rather than an error)
when the key is absent or its sequence is empty. -/
theorem add_accumulates (d : StoreData) (k a b c : Str)
    (h : lookupA k d = none) :
    getAll (addA k c (addA k b (addA k a d))) k = [a, b, c] ∧
    get (addA k c (addA k b (addA k a d))) k = some c ∧
    ∀ (d' : StoreData) (j : Str), get d' j = (getAll d' j).getLast? := by
  have h0 : getAll d k = [] := by simp [getAll, h]
  have h1 : getAll (addA k c (addA k b (addA k a d))) k = [a, b, c] := by
    rw [getAll_addA_self, getAll_addA_self, getAll_addA_self, h0]
    rfl
  refine ⟨h1, ?_, fun d' j => get_eq_getAll_getLast d' j⟩
  rw [get_eq_getAll_getLast, h1]
  rfl

/-- C6 (witness): the accumulation theorem applied to the empty store and
key `"K"` with values `"a"`, `"b"`, `"c"`. -/
theorem add_accumulates_witness :
    getAll (addA "K".data "c".data (addA "K".data "b".data
      (addA "K".data "a".data []))) "K".data = ["a".data, "b".data, "c".data] :=
  (add_accumulates [] "K".data "a".data "b".data "c".data rfl).1

/-- The store used to refute claim C7 as stated: its single value
contains a newline, so `write` emits text whose lines are not one
`<key>: <value>` line for that pair. -/
def cexStoreC7 : StoreData := [("K".data, ["a\nb".data])]

/-- C7 (counterexample): for the store mapping `"K"` to the single value
`"a\nb"`, the text produced by `write` does not consist of one line per
(key, value) pair: it has two lines while the store has one pair, and the
line list differs from the per-pair rendering `<key>: <value>`. -/
theorem write_lines_cex :
    plainLines (writeFile cexStoreC7) ≠
      (pairsOf cexStoreC7).map (fun p => mkLine p.1 p.2) ∧
    (plainLines (writeFile cexStoreC7)).length = 2 ∧
    (pairsOf cexStoreC7).length = 1 := by
  decide

/-- C7 (amended): provided no key or value of the store contains a
newline, the text produced by `write` consists of exactly one line of the
form `<key>: <value>` per (key, value) pair, in the pair iteration order
— a key with N accumulated values yields N lines, each repeating the key
— and, for a store with distinct keys, the values emitted for one key
follow the stored insertion/accumulation order. -/
theorem write_lines_amended (d : StoreData)
    (hnl : ∀ e ∈ d, '\n' ∉ e.1 ∧ ∀ v ∈ e.2, '\n' ∉ v) :
    plainLines (writeFile d) = (pairsOf d).map (fun p => mkLine p.1 p.2) ∧
    ((keysA d).Nodup → ∀ e ∈ d,
      ((pairsOf d).filter (fun p => p.1 == e.1)).map (fun p => p.2) = e.2) := by
  constructor
  · unfold plainLines writeFile
    rw [splitAuxBy_linesText (fun l => l) (pairsOf d) ?hl]
    case hl =>
      intro p hp
      obtain ⟨e, he, hp1, hp2⟩ := mem_pairsOf hp
      exact hp1 ▸ nl_not_mem_mkLine ((hnl e he).1) ((hnl e he).2 p.2 hp2)
  · intro hnd
    clear hnl
    induction d with
    | nil => intro e he; cases he
    | cons a t ih =>
      intro e he
      have hkeys : keysA (a :: t) = a.1 :: keysA t := rfl
      rw [hkeys] at hnd
      have hnotin : a.1 ∉ keysA t := (List.nodup_cons.mp hnd).1
      rcases List.mem_cons.mp he with he | he
      · subst he
        rw [pairsOf, List.filter_append, filter_pairsOf_ne hnotin,
          List.append_nil, filter_pairs_block_self]
      · have hne : a.1 ≠ e.1 := by
          intro h'
          have hkm : e.1 ∈ keysA t := by
            simp only [keysA]
            exact List.mem_map_of_mem _ he
          exact hnotin (by rw [h']; exact hkm)
        rw [pairsOf, List.filter_append, filter_pairs_block_ne hne,
          List.nil_append]
        exact ih (List.nodup_cons.mp hnd).2 e he

/-- C7 (witness): the amended write-shape theorem applied to the concrete
store mapping `"K"` to `["a", "b"]` and `"J"` to `["x"]`. -/
theorem write_lines_amended_witness :
    plainLines (writeFile [("K".data, ["a".data, "b".data]), ("J".data, ["x".data])]) =
      (pairsOf [("K".data, ["a".data, "b".data]), ("J".data, ["x".data])]).map
        (fun p => mkLine p.1 p.2) ∧
    ((pairsOf [("K".data, ["a".data, "b".data]), ("J".data, ["x".data])]).filter
        (fun p => p.1 == "K".data)).map (fun p => p.2) = ["a".data, "b".data] := by
  have h := write_lines_amended
    [("K".data, ["a".data, "b".data]), ("J".data, ["x".data])] (by decide)
  exact ⟨h.1, h.2 (by decide) ("K".data, ["a".data, "b".data]) (by decide)⟩

/-- The prior store used to refute claim C8 as stated: it already holds
the key `"K: a"`, whose written line re-parses as an extra, later value
for `"K"`. -/
def cexStoreC8 : StoreData := [("K".data, ["x".data]), ("K: a".data, ["b".data])]

/-- C8 (counterexample): the claim fails for some stores.  Starting from
the store above, `set "K" ""` followed by `write` and a fresh `read`
yields `get "K" = some "a: b"` — not the empty string: the line written
for the dirty key `"K: a"` parses back as a later value for `"K"`. -/
theorem empty_value_cex :
    get (parseContent (writeFile (setA "K".data "".data cexStoreC8))) "K".data ≠
      some "".data ∧
    get (parseContent (writeFile (setA "K".data "".data cexStoreC8))) "K".data =
      some "a: b".data := by
  decide

/-- C8 (amended): for every clean store (distinct keys; keys equal to
their trim, free of newlines and `": "`, not starting `'#'`; values free
of newlines and not ending `'\r'`), `set "K" ""` followed by `write` and
a fresh `read` yields `get "K" = some ""`: the key is present with the
empty-string value, not absent. -/
theorem empty_value_amended (d : StoreData) (h : cleanStore d) :
    get (parseContent (writeFile (setA "K".data "".data d))) "K".data =
      some "".data := by
  have hclean : cleanStore (setA "K".data "".data d) :=
    cleanStore_setA (by decide) (by decide) h
  rw [parse_write_eq hclean, get_eq_getAll_getLast, set_replaces_all]
  rfl

/-- C8 (witness): the amended empty-value theorem applied to the concrete
clean store mapping `"J"` to `["x"]`. -/
theorem empty_value_amended_witness :
    get (parseContent (writeFile (setA "K".data "".data [("J".data, ["x".data])])))
      "K".data = some "".data :=
  empty_value_amended [("J".data, ["x".data])] (by decide)

/-- C9: the invariant "every present key has at least one value" holds of
the empty store (`new`) and is preserved by `set`, `add`, `delete` and
(re-established from scratch by) `read`; accessors (`get`, `get_all`,
`has`, `keys`, `to_map`, `write`) take the state read-only and cannot
break it.  Moreover `delete` removes the key's entry entirely (no empty
sequence is left behind, for a distinct-key state) and is a no-op, not an
error, on an absent key. -/
theorem invariant_preserved :
    WFStore [] ∧
    (∀ (d : StoreData) (k v : Str), WFStore d → WFStore (setA k v d)) ∧
    (∀ (d : StoreData) (k v : Str), WFStore d → WFStore (addA k v d)) ∧
    (∀ (d : StoreData) (k : Str), WFStore d → WFStore (deleteA k d)) ∧
    (∀ c : Str, WFStore (parseContent c)) ∧
    (∀ (ε : Type) (prior d' : StoreData) (fs : Option (Except ε Str)),
      readRes prior fs = Except.ok d' → WFStore d') ∧
    (∀ (d : StoreData) (k : Str), (keysA d).Nodup →
      lookupA k (deleteA k d) = none) ∧
    (∀ (d : StoreData) (k : Str), lookupA k d = none → deleteA k d = d) := by
  refine ⟨?_, ?_, ?_, ?_, ?_, ?_, ?_, ?_⟩
  · intro e he
    cases he
  · intro d k v h
    exact WF_setA h k v
  · intro d k v h
    exact WF_addA h k v
  · intro d k h
    exact WF_deleteA h k
  · exact WF_parseContent
  · intro ε prior d' fs h
    match fs with
    | none =>
      have : d' = [] := by
        have h' : Except.ok ([] : StoreData) = (Except.ok d' : Except ε StoreData) := h
        exact (Except.ok.inj h').symm
      rw [this]
      intro e he
      cases he
    | some (Except.error e) => cases h
    | some (Except.ok c) =>
      have h' : Except.ok (parseContent c) = (Except.ok d' : Except ε StoreData) := h
      rw [← Except.ok.inj h']
      exact WF_parseContent c
  · intro d k hnd
    exact lookupA_deleteA_self k d hnd
  · intro d k h
    exact deleteA_absent h

/-- C9 (witness): the invariant theorem applied to concrete states:
`set` on the empty store preserves the invariant; `delete` removes the
key entirely; `delete` on an absent key is a no-op. -/
theorem invariant_preserved_witness :
    WFStore (setA "K".data "v".data []) ∧
    lookupA "K".data (deleteA "K".data [("K".data, ["v".data])]) = none ∧
    deleteA "Q".data [("K".data, ["v".data])] = [("K".data, ["v".data])] :=
  ⟨invariant_preserved.2.1 [] "K".data "v".data (fun e he => absurd he (List.not_mem_nil e)),
   invariant_preserved.2.2.2.2.2.2.1 [("K".data, ["v".data])] "K".data (by decide),
   invariant_preserved.2.2.2.2.2.2.2 [("K".data, ["v".data])] "Q".data (by decide)⟩

/-- C10: `set k v`, `add k v` and `delete k` leave every other key `j`
untouched: `get_all j`, `get j` and `has j` are unchanged. -/
theorem mutators_frame (d : StoreData) (k j v : Str) (h : k ≠ j) :
    (getAll (setA k v d) j = getAll d j ∧ get (setA k v d) j = get d j ∧
      hasA (setA k v d) j = hasA d j) ∧
    (getAll (addA k v d) j = getAll d j ∧ get (addA k v d) j = get d j ∧
      hasA (addA k v d) j = hasA d j) ∧
    (getAll (deleteA k d) j = getAll d j ∧ get (deleteA k d) j = get d j ∧
      hasA (deleteA k d) j = hasA d j) := by
  have h1 := lookupA_setA_ne h v d
  have h2 := lookupA_addA_ne h v d
  have h3 := lookupA_deleteA_ne h d
  exact ⟨⟨by simp [getAll, h1], by simp [get, h1], by simp [hasA, h1]⟩,
    ⟨by simp [getAll, h2], by simp [get, h2], by simp [hasA, h2]⟩,
    ⟨by simp [getAll, h3], by simp [get, h3], by simp [hasA, h3]⟩⟩

/-- C10 (witness): the frame theorem applied to the concrete store
mapping `"B"` to `["x"]`, mutated at key `"A"`. -/
theorem mutators_frame_witness :
    getAll (setA "A".data "v".data [("B".data, ["x".data])]) "B".data =
      getAll [("B".data, ["x".data])] "B".data ∧
    hasA (deleteA "A".data [("B".data, ["x".data])]) "B".data =
      hasA [("B".data, ["x".data])] "B".data := by
  have h := mutators_frame [("B".data, ["x".data])] "A".data "B".data "v".data (by decide)
  exact ⟨h.1.1, h.2.2.2.2⟩

end LinoEnv
